import Mathlib

/-
Verification of the lazy query core surfaced by the polars-ruby binding.

The binding layer (ext/polars/src/lib.rs, series/construction.rs) marshals
host values and delegates to the engine.  The development below embeds, as
executable Lean definitions:

  * the module-level entry points that live in lib.rs
    (collect_all, concat_df, concat_series),
  * the typed series constructors from series/construction.rs
    (new_primitive, new_opt_bool and the init_method_opt family),
  * and, modelled from the specification, the lazy plan and expression
    core that the binding surfaces (collect, fetch, optimization toggles,
    join_asof, meta_output_name, meta_roots), whose implementation is in
    lazy/dataframe.rs and lazy/dsl.rs and in the wrapped engine.

Tables carry integer cells; rows are lists of integers and a table is a
column-name header plus a list of rows.
-/

namespace Polars

/-- A materialized table: a header of column names and a list of rows. -/
structure Table where
  cols : List String
  rows : List (List Int)
deriving DecidableEq

/-- Index of the first occurrence of a column name in a header. -/
def colIdx (cols : List String) (s : String) : Option Nat :=
  match cols with
  | [] => none
  | c :: cs => if c = s then some 0 else (colIdx cs s).map (· + 1)

/-- Value of a named column in one row, resolved through the header. -/
def lookupCol (cols : List String) (r : List Int) (s : String) : Option Int :=
  (colIdx cols s).map (fun i => r.getD i 0)

/-- Map a fallible function over a list, failing if any element fails.
This is the deterministic embedding of collecting an iterator of results
into a result of a list, as rayon and std do: order preserved, any
failure makes the whole computation fail. -/
def mapMO {α β : Type} (f : α → Option β) : List α → Option (List β)
  | [] => some []
  | a :: l =>
    match f a, mapMO f l with
    | some b, some bs => some (b :: bs)
    | _, _ => none

/-- Modelled from the spec: expression nodes of the lazy DSL surfaced by
RbExpr (lazy/dsl.rs is not part of the packaged sources).  Literal,
column reference, arithmetic and comparison, per section 3 of the spec. -/
inductive Expr where
  | lit (n : Int)
  | col (s : String)
  | add (a b : Expr)
  | mul (a b : Expr)
  | lt (a b : Expr)
deriving DecidableEq

/-- Base column names an expression reads, with multiplicity. -/
def roots : Expr → List String
  | .lit _ => []
  | .col s => [s]
  | .add a b => roots a ++ roots b
  | .mul a b => roots a ++ roots b
  | .lt a b => roots a ++ roots b

/-- Evaluate an expression on one row.  Comparison yields 1 or 0; a
missing column is a schema error (none). -/
def evalExpr (cols : List String) (r : List Int) : Expr → Option Int
  | .lit n => some n
  | .col s => lookupCol cols r s
  | .add a b =>
    match evalExpr cols r a, evalExpr cols r b with
    | some x, some y => some (x + y)
    | _, _ => none
  | .mul a b =>
    match evalExpr cols r a, evalExpr cols r b with
    | some x, some y => some (x * y)
    | _, _ => none
  | .lt a b =>
    match evalExpr cols r a, evalExpr cols r b with
    | some x, some y => some (if x < y then (1 : Int) else 0)
    | _, _ => none

/-- Modelled from the spec: logical plan nodes (section 3) for the
subset exercised here: scan of an in-memory table, filter by a
predicate, projection to a list of named columns, and a head slice. -/
inductive Plan where
  | scan (t : Table)
  | filter (p : Expr) (c : Plan)
  | select (cs : List String) (c : Plan)
  | slice (n : Nat) (c : Plan)
deriving DecidableEq

/-- Output header of a plan, resolved without executing it. -/
def schema : Plan → List String
  | .scan t => t.cols
  | .filter _ c => schema c
  | .select cs _ => cs
  | .slice _ c => schema c

/-- Boolean subset test on name lists. -/
def subB (xs ys : List String) : Bool :=
  xs.all (fun x => decide (x ∈ ys))

/-- A valid plan: every expression and projection only names columns
present in the schema of its child. -/
def validPlan : Plan → Bool
  | .scan _ => true
  | .filter p c => validPlan c && subB (roots p) (schema c)
  | .select cs c => validPlan c && subB cs (schema c)
  | .slice _ c => validPlan c

/-- Keep the rows on which the predicate evaluates to a nonzero value;
fail if the predicate fails on any row. -/
def filterRows (cols : List String) (p : Expr) : List (List Int) → Option (List (List Int))
  | [] => some []
  | r :: rs =>
    match evalExpr cols r p, filterRows cols p rs with
    | some v, some rest => some (if v = 0 then rest else r :: rest)
    | _, _ => none

/-- Project one row onto a list of named columns. -/
def selRow (cols : List String) (r : List Int) (cs : List String) : Option (List Int) :=
  mapMO (lookupCol cols r) cs

/-- Modelled from the spec: collect fully materializes a plan into a
table (section 4.4); errors at any node abort the whole collect. -/
def collect : Plan → Option Table
  | .scan t => some t
  | .filter p c =>
    match collect c with
    | some t => (filterRows t.cols p t.rows).map (fun rs => Table.mk t.cols rs)
    | none => none
  | .select cs c =>
    match collect c with
    | some t => (mapMO (fun r => selRow t.cols r cs) t.rows).map (fun rs => Table.mk cs rs)
    | none => none
  | .slice n c =>
    match collect c with
    | some t => some (Table.mk t.cols (t.rows.take n))
    | none => none

/-- The module-level _collect_all entry point (lib.rs): collect every
plan of the batch, returning one table per plan or a single error. -/
def collect_all (lfs : List Plan) : Option (List Table) :=
  mapMO collect lfs

/-- The RbLazyFrame wrapper: it stores the logical plan. -/
structure RbLazyFrame where
  ldf : Plan
deriving DecidableEq

/-- One step of the batch collect as written in lib.rs: the stored plan
is cloned and the clone is collected, so the frame itself is returned
unchanged next to the result. -/
def collect_one (lf : RbLazyFrame) : Option Table × RbLazyFrame :=
  let cloned := lf.ldf
  (collect cloned, lf)

/-- State-passing embedding of _collect_all over RbLazyFrame wrappers:
threading the frames through the call makes any mutation of the stored
plans observable in the returned frame list. -/
def collect_all_frames : List RbLazyFrame → Option (List Table) × List RbLazyFrame
  | [] => (some [], [])
  | lf :: rest =>
    let step := collect_one lf
    let tail := collect_all_frames rest
    (match step.1, tail.1 with
     | some t, some ts => some (t :: ts)
     | _, _ => none,
     step.2 :: tail.2)

theorem mapMO_length {α β : Type} (f : α → Option β) :
    ∀ (l : List α) (bs : List β), mapMO f l = some bs → bs.length = l.length := by
  intro l
  induction l with
  | nil => intro bs h; simp [mapMO] at h; simp [← h]
  | cons a t ih =>
    intro bs h
    unfold mapMO at h
    cases hfa : f a with
    | none => rw [hfa] at h; simp at h
    | some b =>
      rw [hfa] at h
      cases hmt : mapMO f t with
      | none => rw [hmt] at h; simp at h
      | some bs2 =>
        rw [hmt] at h
        simp at h
        subst h
        simp [ih bs2 hmt]

theorem mapMO_get {α β : Type} (f : α → Option β) :
    ∀ (l : List α) (bs : List β), mapMO f l = some bs →
      ∀ (i : Nat) (h1 : i < l.length) (h2 : i < bs.length),
        f (l.get ⟨i, h1⟩) = some (bs.get ⟨i, h2⟩) := by
  intro l
  induction l with
  | nil => intro bs h i h1; simp at h1
  | cons a t ih =>
    intro bs h i h1 h2
    unfold mapMO at h
    cases hfa : f a with
    | none => rw [hfa] at h; simp at h
    | some b =>
      rw [hfa] at h
      cases hmt : mapMO f t with
      | none => rw [hmt] at h; simp at h
      | some bs2 =>
        rw [hmt] at h
        simp at h
        subst h
        cases i with
        | zero => simpa using hfa
        | succ j =>
          simp only [List.get_cons_succ]
          exact ih bs2 hmt j (Nat.lt_of_succ_lt_succ h1) (Nat.lt_of_succ_lt_succ h2)

theorem mapMO_none_of_mem {α β : Type} (f : α → Option β) :
    ∀ (l : List α) (a : α), a ∈ l → f a = none → mapMO f l = none := by
  intro l
  induction l with
  | nil => intro a h; simp at h
  | cons b t ih =>
    intro a hmem hfa
    unfold mapMO
    rcases List.mem_cons.mp hmem with h | h
    · subst h; rw [hfa]
    · cases hfb : f b with
      | none => rfl
      | some v => rw [ih a h hfa]

theorem mapMO_mem_some {α β : Type} (f : α → Option β) :
    ∀ (l : List α) (bs : List β), mapMO f l = some bs →
      ∀ a ∈ l, ∃ b, f a = some b := by
  intro l
  induction l with
  | nil => intro bs h a ha; simp at ha
  | cons c t ih =>
    intro bs h a ha
    unfold mapMO at h
    cases hfc : f c with
    | none => rw [hfc] at h; simp at h
    | some b =>
      rw [hfc] at h
      cases hmt : mapMO f t with
      | none => rw [hmt] at h; simp at h
      | some bs2 =>
        rcases List.mem_cons.mp ha with h1 | h1
        · subst h1; exact ⟨b, hfc⟩
        · exact ih bs2 hmt a h1

/-- C2.  Atomicity of the batch collect: if collecting any member plan
fails, _collect_all returns a single error and no list of tables; and
whenever it does return a list, every member plan collected
successfully. -/
theorem collect_all_atomic :
    (∀ (lfs : List Plan) (lf : Plan), lf ∈ lfs → collect lf = none →
      collect_all lfs = none) ∧
    (∀ (lfs : List Plan) (dfs : List Table), collect_all lfs = some dfs →
      ∀ lf ∈ lfs, ∃ t, collect lf = some t) := by
  constructor
  · intro lfs lf hmem hnone
    exact mapMO_none_of_mem collect lfs lf hmem hnone
  · intro lfs dfs h lf hmem
    exact mapMO_mem_some collect lfs dfs h lf hmem

/-- Witness for C2 at a concrete batch: a filter naming an absent
column fails to collect, and the whole batch fails with it. -/
theorem collect_all_atomic_witness :
    collect_all [Plan.scan (Table.mk ["b"] [[1]]),
      Plan.filter (Expr.col "a") (Plan.scan (Table.mk ["b"] [[1]]))] = none :=
  collect_all_atomic.1
    [Plan.scan (Table.mk ["b"] [[1]]),
      Plan.filter (Expr.col "a") (Plan.scan (Table.mk ["b"] [[1]]))]
    (Plan.filter (Expr.col "a") (Plan.scan (Table.mk ["b"] [[1]])))
    (by simp) (by decide)

/-- C6.  Order preservation of the batch collect: on success there is
exactly one table per input plan and the i-th output is the collection
of the i-th input. -/
theorem collect_all_ordered :
    ∀ (lfs : List Plan) (dfs : List Table), collect_all lfs = some dfs →
      dfs.length = lfs.length ∧
      ∀ (i : Nat) (h1 : i < lfs.length) (h2 : i < dfs.length),
        collect (lfs.get ⟨i, h1⟩) = some (dfs.get ⟨i, h2⟩) := by
  intro lfs dfs h
  exact ⟨mapMO_length collect lfs dfs h, mapMO_get collect lfs dfs h⟩

/-- Witness for C6 on a concrete two-plan batch. -/
theorem collect_all_ordered_witness :
    ([Table.mk ["a"] [[1], [2]], Table.mk ["a"] [[1]]] : List Table).length =
      ([Plan.scan (Table.mk ["a"] [[1], [2]]),
        Plan.slice 1 (Plan.scan (Table.mk ["a"] [[1], [2]]))] : List Plan).length ∧
    ∀ (i : Nat)
      (h1 : i < ([Plan.scan (Table.mk ["a"] [[1], [2]]),
        Plan.slice 1 (Plan.scan (Table.mk ["a"] [[1], [2]]))] : List Plan).length)
      (h2 : i < ([Table.mk ["a"] [[1], [2]], Table.mk ["a"] [[1]]] : List Table).length),
        collect (([Plan.scan (Table.mk ["a"] [[1], [2]]),
          Plan.slice 1 (Plan.scan (Table.mk ["a"] [[1], [2]]))] : List Plan).get ⟨i, h1⟩) =
          some (([Table.mk ["a"] [[1], [2]], Table.mk ["a"] [[1]]] : List Table).get ⟨i, h2⟩) :=
  collect_all_ordered
    [Plan.scan (Table.mk ["a"] [[1], [2]]),
      Plan.slice 1 (Plan.scan (Table.mk ["a"] [[1], [2]]))]
    [Table.mk ["a"] [[1], [2]], Table.mk ["a"] [[1]]]
    (by decide)

/-- C5.  Execution never mutates the plans it consumes: the batch
collect returns every frame with its stored plan unchanged, so
collecting the returned frames again yields the same results. -/
theorem collect_all_preserves_plans :
    ∀ (fs : List RbLazyFrame),
      (collect_all_frames fs).2 = fs ∧
      (collect_all_frames (collect_all_frames fs).2).1 = (collect_all_frames fs).1 := by
  have hsnd : ∀ (fs : List RbLazyFrame), (collect_all_frames fs).2 = fs := by
    intro fs
    induction fs with
    | nil => rfl
    | cons lf rest ih =>
      simp only [collect_all_frames, collect_one]
      simp [ih]
  intro fs
  refine ⟨hsnd fs, ?_⟩
  rw [hsnd fs]

/-- Error kinds of section 7 that the developments below distinguish. -/
inductive PErr where
  | schemaMismatch
  | invalidOperation
  | columnNotFound
  | conversionError
deriving DecidableEq

/-- Outcome of a Ruby-facing call: either it returns a value (possibly a
translated error) or the native extension crashes, as an unwrap of a
missing value does. -/
inductive RubyOutcome (α : Type) where
  | crash
  | ret (a : α)
deriving DecidableEq

/-- A dataframe with a dtype tag per column, as schema comparison in
vstack is over names and dtypes. -/
inductive DType where
  | int
  | float
  | str
deriving DecidableEq

/-- Typed dataframe used by the concat entry points. -/
structure DFrame where
  cols : List String
  dtypes : List DType
  rows : List (List Int)
deriving DecidableEq

/-- Height of a dataframe. -/
def DFrame.height (df : DFrame) : Nat := df.rows.length

/-- Modelled from the spec: the engine vstack appends rows of a frame
with an identical schema (Table invariant, section 3) and errors on a
schema mismatch.  The engine implementation is outside this repository. -/
def vstack (a b : DFrame) : Except PErr DFrame :=
  if a.cols = b.cols ∧ a.dtypes = b.dtypes then
    .ok (DFrame.mk a.cols a.dtypes (a.rows ++ b.rows))
  else
    .error .schemaMismatch

/-- One step of the _concat_df fold: an already failed accumulator is
kept, otherwise the next frame is vstacked onto it. -/
def vstackStep (acc : Except PErr DFrame) (df : DFrame) : Except PErr DFrame :=
  match acc with
  | .error e => .error e
  | .ok a => vstack a df

/-- The _concat_df entry point (lib.rs): the first element is taken by
an unchecked unwrap, an empty zero-row slice of the first frame is the
fold identity, and every input frame in order is vstacked onto it. -/
def concat_df : List DFrame → RubyOutcome (Except PErr DFrame)
  | [] => .crash
  | first :: rest =>
    .ret ((first :: rest).foldl vstackStep (.ok (DFrame.mk first.cols first.dtypes [])))

/-- A series with a name, a dtype tag and values. -/
structure SeriesM where
  name : String
  dtype : DType
  values : List Int
deriving DecidableEq

/-- Modelled from the spec: the engine append of one series onto another
requires equal dtypes and concatenates the values. -/
def seriesAppend (a b : SeriesM) : Except PErr SeriesM :=
  if a.dtype = b.dtype then
    .ok (SeriesM.mk a.name a.dtype (a.values ++ b.values))
  else
    .error .schemaMismatch

/-- One step of the _concat_series fold. -/
def appendStep (acc : Except PErr SeriesM) (it : SeriesM) : Except PErr SeriesM :=
  match acc with
  | .error e => .error e
  | .ok s => seriesAppend s it

/-- The _concat_series entry point (lib.rs): the first element is taken
by an unchecked unwrap and every further series is appended onto it. -/
def concat_series : List SeriesM → RubyOutcome (Except PErr SeriesM)
  | [] => .crash
  | first :: rest =>
    .ret (rest.foldl appendStep (.ok first))

/-- C8.  The concat entry points crash on an empty sequence instead of
returning a translated error, and return a translated result on every
non-empty sequence. -/
theorem concat_empty_crashes :
    concat_df [] = RubyOutcome.crash ∧
    concat_series [] = RubyOutcome.crash ∧
    (∀ (f : DFrame) (rest : List DFrame), ∃ r, concat_df (f :: rest) = RubyOutcome.ret r) ∧
    (∀ (s : SeriesM) (rest : List SeriesM), ∃ r, concat_series (s :: rest) = RubyOutcome.ret r) := by
  refine ⟨rfl, rfl, ?_, ?_⟩
  · intro f rest
    exact ⟨_, rfl⟩
  · intro s rest
    exact ⟨_, rfl⟩

/-- Sum of the heights of a list of dataframes. -/
def sumHeights (l : List DFrame) : Nat :=
  l.foldr (fun df n => df.height + n) 0

theorem concat_fold_ok (first : DFrame) :
    ∀ (l : List DFrame) (acc : DFrame),
      acc.cols = first.cols → acc.dtypes = first.dtypes →
      (∀ df ∈ l, df.cols = first.cols ∧ df.dtypes = first.dtypes) →
      l.foldl vstackStep (.ok acc) =
        .ok (DFrame.mk first.cols first.dtypes
          (acc.rows ++ (l.map DFrame.rows).flatten)) := by
  intro l
  induction l with
  | nil =>
    intro acc h1 h2 _
    simp [List.foldl]
    cases acc
    simp_all
  | cons df rest ih =>
    intro acc h1 h2 hall
    have hdf := hall df (by simp)
    have hv : vstackStep (.ok acc) df =
        .ok (DFrame.mk first.cols first.dtypes (acc.rows ++ df.rows)) := by
      simp only [vstackStep, vstack]
      rw [if_pos ⟨by rw [h1, hdf.1], by rw [h2, hdf.2]⟩, h1, h2]
    simp only [List.foldl, hv]
    have := ih (DFrame.mk first.cols first.dtypes (acc.rows ++ df.rows)) rfl rfl
      (fun d hd => hall d (by simp [hd]))
    rw [this]
    simp

theorem concat_err_propagates (e : PErr) :
    ∀ (l : List DFrame), l.foldl vstackStep (.error e) = .error e := by
  intro l
  induction l with
  | nil => rfl
  | cons d r ih => simpa [List.foldl, vstackStep] using ih

theorem concat_fold_err (first : DFrame) :
    ∀ (l : List DFrame) (acc : DFrame),
      acc.cols = first.cols → acc.dtypes = first.dtypes →
      (∃ df ∈ l, ¬(df.cols = first.cols ∧ df.dtypes = first.dtypes)) →
      ∃ e, l.foldl vstackStep (.ok acc) = .error e := by
  intro l
  induction l with
  | nil =>
    intro acc _ _ hbad
    simp at hbad
  | cons df rest ih =>
    intro acc h1 h2 hbad
    by_cases hdf : df.cols = first.cols ∧ df.dtypes = first.dtypes
    · have hv : vstackStep (.ok acc) df =
          .ok (DFrame.mk first.cols first.dtypes (acc.rows ++ df.rows)) := by
        simp only [vstackStep, vstack]
        rw [if_pos ⟨by rw [h1, hdf.1], by rw [h2, hdf.2]⟩, h1, h2]
      simp only [List.foldl, hv]
      rcases hbad with ⟨d, hd, hdbad⟩
      rcases List.mem_cons.mp hd with h | h
      · subst h; exact absurd hdf hdbad
      · exact ih (DFrame.mk first.cols first.dtypes (acc.rows ++ df.rows)) rfl rfl ⟨d, h, hdbad⟩
    · have hv : vstackStep (.ok acc) df = .error .schemaMismatch := by
        simp only [vstackStep, vstack]
        rw [if_neg]
        intro hc
        exact hdf ⟨by rw [← h1, hc.1], by rw [← h2, hc.2]⟩
      simp only [List.foldl, hv]
      exact ⟨.schemaMismatch, concat_err_propagates .schemaMismatch rest⟩

theorem flatten_rows_length :
    ∀ (l : List DFrame), ((l.map DFrame.rows).flatten).length = sumHeights l := by
  intro l
  induction l with
  | nil => simp [sumHeights]
  | cons d r ih =>
    simp only [List.map_cons, List.flatten_cons, List.length_append, sumHeights,
      List.foldr_cons, DFrame.height] at *
    omega

/-- C10.  Schema and height of _concat_df: on a non-empty sequence of
frames all sharing the schema of the first, the result is a frame whose
schema is that of the first input and whose height is the sum of the
input heights; a one-element sequence returns that frame unchanged; a
later frame whose schema differs from the first makes the call return a
translated error. -/
theorem concat_df_schema_height :
    (∀ (first : DFrame) (rest : List DFrame),
      (∀ df ∈ rest, df.cols = first.cols ∧ df.dtypes = first.dtypes) →
      ∃ out, concat_df (first :: rest) = RubyOutcome.ret (.ok out) ∧
        out.cols = first.cols ∧ out.dtypes = first.dtypes ∧
        out.height = sumHeights (first :: rest) ∧
        (rest = [] → out = first)) ∧
    (∀ (first : DFrame) (rest : List DFrame),
      (∃ df ∈ rest, ¬(df.cols = first.cols ∧ df.dtypes = first.dtypes)) →
      ∃ e, concat_df (first :: rest) = RubyOutcome.ret (.error e)) := by
  constructor
  · intro first rest hall
    have hfold := concat_fold_ok first (first :: rest) (DFrame.mk first.cols first.dtypes [])
      rfl rfl (by
        intro df hdf
        rcases List.mem_cons.mp hdf with h | h
        · subst h; exact ⟨rfl, rfl⟩
        · exact hall df h)
    refine ⟨DFrame.mk first.cols first.dtypes
      (((first :: rest).map DFrame.rows).flatten), ?_, rfl, rfl, ?_, ?_⟩
    · simp only [concat_df]
      rw [hfold]
      simp
    · exact flatten_rows_length (first :: rest)
    · intro hrest
      subst hrest
      cases first
      simp
  · intro first rest hbad
    have hfold := concat_fold_err first (first :: rest) (DFrame.mk first.cols first.dtypes [])
      rfl rfl (by
        rcases hbad with ⟨d, hd, hdbad⟩
        exact ⟨d, by simp [hd], hdbad⟩)
    rcases hfold with ⟨e, he⟩
    refine ⟨e, ?_⟩
    simp only [concat_df]
    rw [he]

/-- Witness for C10: a two-frame batch with equal schemas concatenates
to a three-row frame, and a mismatched second frame yields an error. -/
theorem concat_df_schema_height_witness :
    (∃ out, concat_df [DFrame.mk ["a"] [.int] [[1], [2]], DFrame.mk ["a"] [.int] [[3]]] =
        RubyOutcome.ret (.ok out) ∧
      out.cols = ["a"] ∧ out.dtypes = [.int] ∧
      out.height = sumHeights [DFrame.mk ["a"] [.int] [[1], [2]], DFrame.mk ["a"] [.int] [[3]]] ∧
      ([DFrame.mk ["a"] [.int] [[3]]] = ([] : List DFrame) →
        out = DFrame.mk ["a"] [.int] [[1], [2]])) ∧
    (∃ e, concat_df [DFrame.mk ["a"] [.int] [[1], [2]], DFrame.mk ["b"] [.int] [[3]]] =
        RubyOutcome.ret (.error e)) :=
  ⟨concat_df_schema_height.1 (DFrame.mk ["a"] [.int] [[1], [2]])
      [DFrame.mk ["a"] [.int] [[3]]] (by decide),
    concat_df_schema_height.2 (DFrame.mk ["a"] [.int] [[1], [2]])
      [DFrame.mk ["b"] [.int] [[3]]] (by decide)⟩

/-- Host value as seen through the conversion layer at the FFI
boundary: Ruby nil, a value that converts to the target native type, or
a non-nil value whose conversion fails. -/
inductive HostVal (α : Type) where
  | nil
  | val (a : α)
  | bad
deriving DecidableEq

/-- The new_primitive constructor of series/construction.rs: walk the
host array; nil appends a null, a convertible value appends the value,
and a failed conversion raises the conversion error when strict and
appends a null otherwise. -/
def new_primitive {α : Type} (_name : String) (obj : List (HostVal α)) (strict : Bool) :
    Except PErr (List (Option α)) :=
  match obj with
  | [] => .ok []
  | item :: rest =>
    match item with
    | .nil => (new_primitive _name rest strict).map (fun l => none :: l)
    | .val a => (new_primitive _name rest strict).map (fun l => some a :: l)
    | .bad =>
      if strict then .error .conversionError
      else (new_primitive _name rest strict).map (fun l => none :: l)

/-- The new_opt_bool constructor of series/construction.rs, written out
with its own loop over the boolean builder exactly like the source. -/
def new_opt_bool (_name : String) (obj : List (HostVal Bool)) (strict : Bool) :
    Except PErr (List (Option Bool)) :=
  match obj with
  | [] => .ok []
  | item :: rest =>
    match item with
    | .nil => (new_opt_bool _name rest strict).map (fun l => none :: l)
    | .val a => (new_opt_bool _name rest strict).map (fun l => some a :: l)
    | .bad =>
      if strict then .error .conversionError
      else (new_opt_bool _name rest strict).map (fun l => none :: l)

theorem new_primitive_lenient {α : Type} (name : String) :
    ∀ (l : List (HostVal α)),
      ∃ es, new_primitive name l false = .ok es ∧ es.length = l.length ∧
        ∀ (i : Nat) (h1 : i < l.length) (h2 : i < es.length),
          (es.get ⟨i, h2⟩ = none ↔
            (l.get ⟨i, h1⟩ = HostVal.nil ∨ l.get ⟨i, h1⟩ = HostVal.bad)) := by
  intro l
  induction l with
  | nil =>
    refine ⟨[], rfl, rfl, ?_⟩
    intro i h1
    simp at h1
  | cons item rest ih =>
    rcases ih with ⟨es, he, hlen, hget⟩
    cases item with
    | nil =>
      refine ⟨none :: es, by simp [new_primitive, he, Except.map], by simp [hlen], ?_⟩
      intro i h1 h2
      cases i with
      | zero => simp
      | succ j =>
        simp only [List.get_cons_succ]
        exact hget j (Nat.lt_of_succ_lt_succ h1) (Nat.lt_of_succ_lt_succ h2)
    | val a =>
      refine ⟨some a :: es, by simp [new_primitive, he, Except.map], by simp [hlen], ?_⟩
      intro i h1 h2
      cases i with
      | zero => simp
      | succ j =>
        simp only [List.get_cons_succ]
        exact hget j (Nat.lt_of_succ_lt_succ h1) (Nat.lt_of_succ_lt_succ h2)
    | bad =>
      refine ⟨none :: es, by simp [new_primitive, he, Except.map], by simp [hlen], ?_⟩
      intro i h1 h2
      cases i with
      | zero => simp
      | succ j =>
        simp only [List.get_cons_succ]
        exact hget j (Nat.lt_of_succ_lt_succ h1) (Nat.lt_of_succ_lt_succ h2)

theorem new_primitive_strict_bad {α : Type} (name : String) :
    ∀ (l : List (HostVal α)), HostVal.bad ∈ l →
      new_primitive name l true = .error .conversionError := by
  intro l
  induction l with
  | nil => intro h; simp at h
  | cons item rest ih =>
    intro hmem
    cases item with
    | nil =>
      have : HostVal.bad ∈ rest := by
        rcases List.mem_cons.mp hmem with h | h
        · exact absurd h.symm (by simp)
        · exact h
      simp [new_primitive, ih this, Except.map]
    | val a =>
      have : HostVal.bad ∈ rest := by
        rcases List.mem_cons.mp hmem with h | h
        · exact absurd h.symm (by simp)
        · exact h
      simp [new_primitive, ih this, Except.map]
    | bad => simp [new_primitive]

theorem new_primitive_strict_no_bad {α : Type} (name : String) :
    ∀ (l : List (HostVal α)), HostVal.bad ∉ l →
      new_primitive name l true = new_primitive name l false := by
  intro l
  induction l with
  | nil => intro _; rfl
  | cons item rest ih =>
    intro hmem
    have hrest : HostVal.bad ∉ rest := fun h => hmem (List.mem_cons_of_mem _ h)
    cases item with
    | nil => simp [new_primitive, ih hrest]
    | val a => simp [new_primitive, ih hrest]
    | bad => exact absurd (List.mem_cons_self _ _) hmem

theorem new_opt_bool_eq_generic (name : String) (strict : Bool) :
    ∀ (l : List (HostVal Bool)), new_opt_bool name l strict = new_primitive name l strict := by
  intro l
  induction l with
  | nil => rfl
  | cons item rest ih =>
    cases item with
    | nil => simp [new_opt_bool, new_primitive, ih]
    | val a => simp [new_opt_bool, new_primitive, ih]
    | bad => cases strict <;> simp [new_opt_bool, new_primitive, ih]

/-- C9.  Strictness contract of the typed series constructors: with
strict false the constructor always succeeds, preserves the length, and
entry i is null exactly when element i is nil or fails conversion; with
strict true a failed conversion raises and, absent failures, strict and
lenient construction agree (so nil still becomes null); the boolean
constructor follows the same generic contract. -/
theorem new_opt_strictness :
    (∀ (α : Type) (name : String) (l : List (HostVal α)),
      ∃ es, new_primitive name l false = .ok es ∧ es.length = l.length ∧
        ∀ (i : Nat) (h1 : i < l.length) (h2 : i < es.length),
          (es.get ⟨i, h2⟩ = none ↔
            (l.get ⟨i, h1⟩ = HostVal.nil ∨ l.get ⟨i, h1⟩ = HostVal.bad))) ∧
    (∀ (α : Type) (name : String) (l : List (HostVal α)), HostVal.bad ∈ l →
      new_primitive name l true = .error .conversionError) ∧
    (∀ (α : Type) (name : String) (l : List (HostVal α)), HostVal.bad ∉ l →
      new_primitive name l true = new_primitive name l false) ∧
    (∀ (name : String) (strict : Bool) (l : List (HostVal Bool)),
      new_opt_bool name l strict = new_primitive name l strict) := by
  exact ⟨fun α => new_primitive_lenient, fun α => new_primitive_strict_bad,
    fun α => new_primitive_strict_no_bad, new_opt_bool_eq_generic⟩

/-- Witness for C9 at concrete inputs over the Int instantiation and
the boolean constructor. -/
theorem new_opt_strictness_witness :
    (∃ es, new_primitive "a" [HostVal.nil, HostVal.val (3 : Int), HostVal.bad] false =
        .ok es ∧ es.length = 3 ∧
        ∀ (i : Nat) (h1 : i < ([HostVal.nil, HostVal.val (3 : Int), HostVal.bad]).length)
          (h2 : i < es.length),
          (es.get ⟨i, h2⟩ = none ↔
            (([HostVal.nil, HostVal.val (3 : Int), HostVal.bad]).get ⟨i, h1⟩ = HostVal.nil ∨
             ([HostVal.nil, HostVal.val (3 : Int), HostVal.bad]).get ⟨i, h1⟩ = HostVal.bad))) ∧
    new_primitive "a" [HostVal.val (1 : Int), HostVal.bad] true = .error .conversionError ∧
    new_primitive "a" [HostVal.nil, HostVal.val (2 : Int)] true =
      new_primitive "a" [HostVal.nil, HostVal.val (2 : Int)] false ∧
    new_opt_bool "b" [HostVal.nil, HostVal.val true] false =
      new_primitive "b" [HostVal.nil, HostVal.val true] false := by
  refine ⟨?_, ?_, ?_, ?_⟩
  · exact new_opt_strictness.1 Int "a" [HostVal.nil, HostVal.val (3 : Int), HostVal.bad]
  · exact new_opt_strictness.2.1 Int "a" [HostVal.val (1 : Int), HostVal.bad] (by decide)
  · exact new_opt_strictness.2.2.1 Int "a" [HostVal.nil, HostVal.val (2 : Int)] (by decide)
  · exact new_opt_strictness.2.2.2 "b" false [HostVal.nil, HostVal.val true]

/-- Values of one named column of a table. -/
def getCol (t : Table) (s : String) : Option (List Int) :=
  (colIdx t.cols s).map (fun i => t.rows.map (fun r => r.getD i 0))

/-- Non-descending sortedness of a key column. -/
def sortedAsc : List Int → Bool
  | [] => true
  | [_] => true
  | a :: b :: rest => decide (a ≤ b) && sortedAsc (b :: rest)

/-- Index of the last element less than or equal to the key, the
backward asof match on a sorted key column. -/
def lastLe (rk : List Int) (k : Int) : Option Nat :=
  match rk with
  | [] => none
  | a :: rest =>
    match lastLe rest k with
    | some i => some (i + 1)
    | none => if a ≤ k then some 0 else none

/-- Joined table whose cells may be null on the unmatched side. -/
structure OptTable where
  cols : List String
  rows : List (List (Option Int))
deriving DecidableEq

/-- Modelled from the spec: the asof join surfaced by
RbLazyFrame.join_asof (lazy/dataframe.rs and the engine are outside the
packaged sources).  Each left row is matched to the nearest earlier
right row by key; the join demands both key columns sorted ascending
and fails with the invalid-operation error otherwise, never returning a
table with wrong matches. -/
def join_asof (l r : Table) (lOn rOn : String) : Except PErr OptTable :=
  match getCol l lOn, getCol r rOn with
  | some lk, some rk =>
    if sortedAsc lk && sortedAsc rk then
      .ok (OptTable.mk (l.cols ++ r.cols)
        ((l.rows.zip lk).map (fun pr =>
          (pr.1.map some) ++
            (match lastLe rk pr.2 with
             | some i => ((r.rows.getD i []).map some)
             | none => r.cols.map (fun _ => (none : Option Int))))))
    else .error .invalidOperation
  | _, _ => .error .columnNotFound

/-- C4.  Asof join on an unsorted right frame: whenever the right key
column is present but not sorted ascending, collecting the asof join
fails with the invalid-operation error and never returns a table. -/
theorem join_asof_unsorted_errors (l r : Table) (lOn rOn : String) (rk : List Int)
    (h1 : getCol r rOn = some rk) (h2 : sortedAsc rk = false) :
    (getCol l lOn ≠ none → join_asof l r lOn rOn = .error .invalidOperation) ∧
    ∀ t, join_asof l r lOn rOn ≠ .ok t := by
  constructor
  · intro hl
    cases hlk : getCol l lOn with
    | none => exact absurd hlk hl
    | some lk => simp [join_asof, hlk, h1, h2]
  · intro t hok
    cases hlk : getCol l lOn with
    | none => simp [join_asof, hlk, h1] at hok
    | some lk => simp [join_asof, hlk, h1, h2] at hok

/-- Witness for C4: a concrete two-row right frame with a descending
key makes the asof join fail with the invalid-operation error. -/
theorem join_asof_unsorted_errors_witness :
    (getCol (Table.mk ["a"] [[1]]) "a" ≠ none →
      join_asof (Table.mk ["a"] [[1]]) (Table.mk ["k"] [[5], [2]]) "a" "k" =
        .error .invalidOperation) ∧
    ∀ t, join_asof (Table.mk ["a"] [[1]]) (Table.mk ["k"] [[5], [2]]) "a" "k" ≠ .ok t :=
  join_asof_unsorted_errors (Table.mk ["a"] [[1]]) (Table.mk ["k"] [[5], [2]])
    "a" "k" [5, 2] (by decide) (by decide)

/-- Modelled from the spec: expression nodes of the meta interface
(lazy/dsl.rs is outside the packaged sources): literal, column, sum of
two expressions, and an alias giving the output a new name. -/
inductive DslExpr where
  | lit (n : Int)
  | col (s : String)
  | add (a b : DslExpr)
  | aliasE (e : DslExpr) (s : String)
deriving DecidableEq

/-- Modelled from the spec: meta_output_name resolves the name of the
column the expression will produce; it takes no table, so by type alone
it executes nothing and touches no data. -/
def meta_output_name : DslExpr → Option String
  | .lit _ => some "literal"
  | .col s => some s
  | .add a _ => meta_output_name a
  | .aliasE _ s => some s

/-- Modelled from the spec: meta_roots lists the base column names the
expression reads; it takes no table either. -/
def meta_roots : DslExpr → List String
  | .lit _ => []
  | .col s => [s]
  | .add a b => meta_roots a ++ meta_roots b
  | .aliasE e _ => meta_roots e

/-- Execution of a DSL expression against a table: the produced named
column, with the name computed by the evaluator itself. -/
def evalDsl (t : Table) : DslExpr → Option (String × List Int)
  | .lit n => some ("literal", t.rows.map (fun _ => n))
  | .col s => (getCol t s).map (fun vs => (s, vs))
  | .add a b =>
    match evalDsl t a, evalDsl t b with
    | some pa, some pb => some (pa.1, List.zipWith (· + ·) pa.2 pb.2)
    | _, _ => none
  | .aliasE e s => (evalDsl t e).map (fun pr => (s, pr.2))

theorem evalDsl_output_name (t : Table) :
    ∀ (e : DslExpr) (nm : String) (vs : List Int),
      evalDsl t e = some (nm, vs) → meta_output_name e = some nm := by
  intro e
  induction e with
  | lit n =>
    intro nm vs h
    simp [evalDsl] at h
    simp [meta_output_name, h.1]
  | col s =>
    intro nm vs h
    simp [evalDsl] at h
    cases hg : getCol t s with
    | none => rw [hg] at h; simp at h
    | some vals =>
      rw [hg] at h
      simp at h
      simp [meta_output_name, h.2]
  | add a b iha ihb =>
    intro nm vs h
    unfold evalDsl at h
    cases ha : evalDsl t a with
    | none => rw [ha] at h; simp at h
    | some pa =>
      cases hb : evalDsl t b with
      | none => rw [ha, hb] at h; simp at h
      | some pb =>
        rw [ha, hb] at h
        simp at h
        have := iha pa.1 pa.2 (by rw [ha])
        simp [meta_output_name, this, h.1]
  | aliasE e s ih =>
    intro nm vs h
    simp [evalDsl] at h
    cases he : evalDsl t e with
    | none => rw [he] at h; simp at h
    | some pr =>
      rw [he] at h
      simp at h
      simp [meta_output_name, h.2]

theorem evalDsl_depends_on_roots :
    ∀ (e : DslExpr) (t1 t2 : Table),
      t1.rows.length = t2.rows.length →
      (∀ s ∈ meta_roots e, getCol t1 s = getCol t2 s) →
      evalDsl t1 e = evalDsl t2 e := by
  intro e
  induction e with
  | lit n =>
    intro t1 t2 hlen _
    simp only [evalDsl]
    rw [List.map_const', List.map_const', hlen]
  | col s =>
    intro t1 t2 _ hroots
    simp only [evalDsl]
    rw [hroots s (by simp [meta_roots])]
  | add a b iha ihb =>
    intro t1 t2 hlen hroots
    have ha := iha t1 t2 hlen (fun s hs => hroots s (by simp [meta_roots, hs]))
    have hb := ihb t1 t2 hlen (fun s hs => hroots s (by simp [meta_roots, hs]))
    simp only [evalDsl, ha, hb]
  | aliasE e s ih =>
    intro t1 t2 hlen hroots
    have he := ih t1 t2 hlen (fun s2 hs => hroots s2 (by simpa [meta_roots] using hs))
    simp only [evalDsl, he]

/-- C7.  The meta interface resolves names without execution: whenever
evaluating an expression produces a named column, its name is the one
meta_output_name resolved beforehand, and evaluation depends only on
the row count and on the base columns listed by meta_roots; both meta
functions take no table at all, so they read no data. -/
theorem meta_resolves_without_execution :
    (∀ (t : Table) (e : DslExpr) (nm : String) (vs : List Int),
      evalDsl t e = some (nm, vs) → meta_output_name e = some nm) ∧
    (∀ (e : DslExpr) (t1 t2 : Table),
      t1.rows.length = t2.rows.length →
      (∀ s ∈ meta_roots e, getCol t1 s = getCol t2 s) →
      evalDsl t1 e = evalDsl t2 e) :=
  ⟨evalDsl_output_name, evalDsl_depends_on_roots⟩

/-- Witness for C7: the aliased sum of two columns reports the alias as
its output name, and evaluation agrees between two tables that agree on
the root columns. -/
theorem meta_resolves_without_execution_witness :
    meta_output_name (DslExpr.aliasE (DslExpr.add (DslExpr.col "a") (DslExpr.col "b")) "s") =
      some "s" ∧
    evalDsl (Table.mk ["a", "b", "c"] [[1, 2, 3], [4, 5, 6]])
        (DslExpr.add (DslExpr.col "a") (DslExpr.col "b")) =
      evalDsl (Table.mk ["b", "a"] [[2, 1], [5, 4]])
        (DslExpr.add (DslExpr.col "a") (DslExpr.col "b")) :=
  ⟨meta_resolves_without_execution.1
      (Table.mk ["a", "b", "c"] [[1, 2, 3], [4, 5, 6]])
      (DslExpr.aliasE (DslExpr.add (DslExpr.col "a") (DslExpr.col "b")) "s")
      "s" [3, 9] (by decide),
    meta_resolves_without_execution.2
      (DslExpr.add (DslExpr.col "a") (DslExpr.col "b"))
      (Table.mk ["a", "b", "c"] [[1, 2, 3], [4, 5, 6]])
      (Table.mk ["b", "a"] [[2, 1], [5, 4]])
      (by decide) (by decide)⟩

theorem subB_mem {xs ys : List String} (h : subB xs ys = true) :
    ∀ x ∈ xs, x ∈ ys := by
  intro x hx
  have := (List.all_eq_true).mp h x hx
  exact of_decide_eq_true this

theorem subB_of_forall {xs ys : List String} (h : ∀ x ∈ xs, x ∈ ys) :
    subB xs ys = true := by
  apply List.all_eq_true.mpr
  intro x hx
  exact decide_eq_true (h x hx)

theorem subB_trans {xs ys zs : List String} (h1 : subB xs ys = true)
    (h2 : subB ys zs = true) : subB xs zs = true :=
  subB_of_forall (fun x hx => subB_mem h2 x (subB_mem h1 x hx))

theorem subB_append_left {xs1 xs2 ys : List String}
    (h : subB (xs1 ++ xs2) ys = true) : subB xs1 ys = true :=
  subB_of_forall (fun x hx => subB_mem h x (List.mem_append_left _ hx))

theorem subB_append_right {xs1 xs2 ys : List String}
    (h : subB (xs1 ++ xs2) ys = true) : subB xs2 ys = true :=
  subB_of_forall (fun x hx => subB_mem h x (List.mem_append_right _ hx))

theorem colIdx_total {cols : List String} {s : String} (h : s ∈ cols) :
    ∃ i, colIdx cols s = some i := by
  induction cols with
  | nil => simp at h
  | cons c cs ih =>
    by_cases hc : c = s
    · exact ⟨0, by simp [colIdx, hc]⟩
    · have hs : s ∈ cs := by
        rcases List.mem_cons.mp h with h1 | h1
        · exact absurd h1.symm hc
        · exact h1
      rcases ih hs with ⟨i, hi⟩
      exact ⟨i + 1, by simp [colIdx, hc, hi]⟩

theorem lookupCol_total {cols : List String} (r : List Int) {s : String} (h : s ∈ cols) :
    ∃ v, lookupCol cols r s = some v := by
  rcases colIdx_total h with ⟨i, hi⟩
  exact ⟨r.getD i 0, by simp [lookupCol, hi]⟩

theorem evalExpr_total {cols : List String} (r : List Int) :
    ∀ (p : Expr), subB (roots p) cols = true → ∃ v, evalExpr cols r p = some v := by
  intro p
  induction p with
  | lit n => intro _; exact ⟨n, rfl⟩
  | col s =>
    intro h
    exact lookupCol_total r (subB_mem h s (by simp [roots]))
  | add a b iha ihb =>
    intro h
    rcases iha (subB_append_left (by simpa [roots] using h)) with ⟨x, hx⟩
    rcases ihb (subB_append_right (by simpa [roots] using h)) with ⟨y, hy⟩
    exact ⟨x + y, by simp [evalExpr, hx, hy]⟩
  | mul a b iha ihb =>
    intro h
    rcases iha (subB_append_left (by simpa [roots] using h)) with ⟨x, hx⟩
    rcases ihb (subB_append_right (by simpa [roots] using h)) with ⟨y, hy⟩
    exact ⟨x * y, by simp [evalExpr, hx, hy]⟩
  | lt a b iha ihb =>
    intro h
    rcases iha (subB_append_left (by simpa [roots] using h)) with ⟨x, hx⟩
    rcases ihb (subB_append_right (by simpa [roots] using h)) with ⟨y, hy⟩
    exact ⟨if x < y then (1 : Int) else 0, by simp [evalExpr, hx, hy]⟩

theorem mapMO_total {α β : Type} {f : α → Option β} :
    ∀ {l : List α}, (∀ a ∈ l, ∃ b, f a = some b) → ∃ bs, mapMO f l = some bs := by
  intro l
  induction l with
  | nil => intro _; exact ⟨[], rfl⟩
  | cons a t ih =>
    intro h
    rcases h a (by simp) with ⟨b, hb⟩
    rcases ih (fun x hx => h x (by simp [hx])) with ⟨bs, hbs⟩
    exact ⟨b :: bs, by simp [mapMO, hb, hbs]⟩

theorem selRow_total {cols cs : List String} (r : List Int) (h : subB cs cols = true) :
    ∃ pr, selRow cols r cs = some pr :=
  mapMO_total (fun s hs => lookupCol_total r (subB_mem h s hs))

theorem filterRows_total {cols : List String} {p : Expr} (h : subB (roots p) cols = true) :
    ∀ (rows : List (List Int)), ∃ out, filterRows cols p rows = some out := by
  intro rows
  induction rows with
  | nil => exact ⟨[], rfl⟩
  | cons r rs ih =>
    rcases evalExpr_total r p h with ⟨v, hv⟩
    rcases ih with ⟨rest, hrest⟩
    exact ⟨if v = 0 then rest else r :: rest, by simp [filterRows, hv, hrest]⟩

theorem collect_total :
    ∀ (P : Plan), validPlan P = true → ∃ t, collect P = some t ∧ t.cols = schema P := by
  intro P
  induction P with
  | scan t => intro _; exact ⟨t, rfl, rfl⟩
  | filter p c ih =>
    intro h
    have hparts := Bool.and_eq_true_iff.mp (by simpa [validPlan] using h)
    rcases ih hparts.1 with ⟨t, ht, hcols⟩
    have hsub : subB (roots p) t.cols = true := by rw [hcols]; exact hparts.2
    rcases filterRows_total hsub t.rows with ⟨frs, hfrs⟩
    refine ⟨Table.mk t.cols frs, ?_, by simpa [schema] using hcols⟩
    simp [collect, ht, hfrs]
  | select cs c ih =>
    intro h
    have hparts := Bool.and_eq_true_iff.mp (by simpa [validPlan] using h)
    rcases ih hparts.1 with ⟨t, ht, hcols⟩
    have hsub : subB cs t.cols = true := by rw [hcols]; exact hparts.2
    rcases mapMO_total (f := fun r => selRow t.cols r cs)
      (l := t.rows) (fun r _ => selRow_total r hsub) with ⟨prs, hprs⟩
    refine ⟨Table.mk cs prs, ?_, rfl⟩
    simp [collect, ht, hprs]
  | slice n c ih =>
    intro h
    rcases ih (by simpa [validPlan] using h) with ⟨t, ht, hcols⟩
    refine ⟨Table.mk t.cols (t.rows.take n), ?_, by simpa [schema] using hcols⟩
    simp [collect, ht]

theorem lookupCol_transfer {cols : List String} {r : List Int} :
    ∀ {cs : List String} {pr : List Int}, selRow cols r cs = some pr →
      ∀ {s : String}, s ∈ cs → lookupCol cs pr s = lookupCol cols r s := by
  intro cs
  induction cs with
  | nil => intro pr _ s hs; simp at hs
  | cons c cs2 ih =>
    intro pr hsel s hs
    unfold selRow mapMO at hsel
    cases hv : lookupCol cols r c with
    | none => rw [hv] at hsel; simp at hsel
    | some v =>
      rw [hv] at hsel
      cases hrest : mapMO (lookupCol cols r) cs2 with
      | none => rw [hrest] at hsel; simp at hsel
      | some pr2 =>
        rw [hrest] at hsel
        simp at hsel
        subst hsel
        by_cases hc : c = s
        · subst hc
          rw [hv]
          simp [lookupCol, colIdx]
        · have hs2 : s ∈ cs2 := by
            rcases List.mem_cons.mp hs with h1 | h1
            · exact absurd h1.symm hc
            · exact h1
          have hsr : selRow cols r cs2 = some pr2 := by simpa [selRow] using hrest
          have := ih hsr hs2
          simp only [lookupCol] at this ⊢
          simp only [colIdx, hc, if_false]
          cases hci : colIdx cs2 s with
          | none => rw [hci] at this; simpa using this
          | some j => rw [hci] at this; simpa using this

theorem evalExpr_transfer {cols cs : List String} {r pr : List Int}
    (hsel : selRow cols r cs = some pr) :
    ∀ (p : Expr), subB (roots p) cs = true →
      evalExpr cs pr p = evalExpr cols r p := by
  intro p
  induction p with
  | lit n => intro _; rfl
  | col s =>
    intro h
    exact lookupCol_transfer hsel (subB_mem h s (by simp [roots]))
  | add a b iha ihb =>
    intro h
    have ha := iha (subB_append_left (by simpa [roots] using h))
    have hb := ihb (subB_append_right (by simpa [roots] using h))
    simp only [evalExpr, ha, hb]
  | mul a b iha ihb =>
    intro h
    have ha := iha (subB_append_left (by simpa [roots] using h))
    have hb := ihb (subB_append_right (by simpa [roots] using h))
    simp only [evalExpr, ha, hb]
  | lt a b iha ihb =>
    intro h
    have ha := iha (subB_append_left (by simpa [roots] using h))
    have hb := ihb (subB_append_right (by simpa [roots] using h))
    simp only [evalExpr, ha, hb]

theorem selRow_transfer {cols ds : List String} {r pr : List Int}
    (hsel : selRow cols r ds = some pr) {cs : List String}
    (hsub : subB cs ds = true) :
    selRow ds pr cs = selRow cols r cs := by
  unfold selRow
  induction cs with
  | nil => rfl
  | cons c cs2 ih =>
    unfold mapMO
    rw [lookupCol_transfer hsel (subB_mem hsub c (by simp))]
    rw [ih (subB_of_forall (fun x hx => subB_mem hsub x (by simp [hx])))]

theorem mapMO_comp_pointwise {α β γ : Type} {f : α → Option β} {g : β → Option γ}
    {h : α → Option γ}
    (hpt : ∀ a b, f a = some b → g b = h a) :
    ∀ {l : List α} {bs : List β}, mapMO f l = some bs →
      mapMO g bs = mapMO h l := by
  intro l
  induction l with
  | nil =>
    intro bs hm
    simp [mapMO] at hm
    subst hm
    rfl
  | cons a t ih =>
    intro bs hm
    unfold mapMO at hm
    cases hfa : f a with
    | none => rw [hfa] at hm; simp at hm
    | some b =>
      rw [hfa] at hm
      cases hmt : mapMO f t with
      | none => rw [hmt] at hm; simp at hm
      | some bs2 =>
        rw [hmt] at hm
        simp at hm
        subst hm
        show mapMO g (b :: bs2) = mapMO h (a :: t)
        unfold mapMO
        rw [hpt a b hfa, ih hmt]

theorem mapMO_take {α β : Type} {f : α → Option β} :
    ∀ {l : List α} {bs : List β}, mapMO f l = some bs →
      ∀ (n : Nat), mapMO f (l.take n) = some (bs.take n) := by
  intro l
  induction l with
  | nil =>
    intro bs hm n
    simp [mapMO] at hm
    subst hm
    simp [mapMO]
  | cons a t ih =>
    intro bs hm n
    unfold mapMO at hm
    cases hfa : f a with
    | none => rw [hfa] at hm; simp at hm
    | some b =>
      rw [hfa] at hm
      cases hmt : mapMO f t with
      | none => rw [hmt] at hm; simp at hm
      | some bs2 =>
        rw [hmt] at hm
        simp at hm
        subst hm
        cases n with
        | zero => simp [mapMO]
        | succ m =>
          simp only [List.take_succ_cons]
          unfold mapMO
          rw [hfa, ih hmt m]

theorem filterRows_congr {cols : List String} {p1 p2 : Expr}
    (hpt : ∀ r, evalExpr cols r p1 = evalExpr cols r p2) :
    ∀ (rows : List (List Int)), filterRows cols p1 rows = filterRows cols p2 rows := by
  intro rows
  induction rows with
  | nil => rfl
  | cons r rs ih =>
    unfold filterRows
    rw [hpt r, ih]

theorem collect_filter_congr {p : Expr} {X Y : Plan} (h : collect X = collect Y) :
    collect (.filter p X) = collect (.filter p Y) := by
  simp only [collect, h]

theorem collect_select_congr {cs : List String} {X Y : Plan} (h : collect X = collect Y) :
    collect (.select cs X) = collect (.select cs Y) := by
  simp only [collect, h]

theorem collect_slice_congr {n : Nat} {X Y : Plan} (h : collect X = collect Y) :
    collect (.slice n X) = collect (.slice n Y) := by
  simp only [collect, h]

theorem swap_core {cols cs : List String} {p : Expr}
    (hcs : subB cs cols = true) (hp : subB (roots p) cs = true) :
    ∀ (rows : List (List Int)),
      ∃ prs frs out,
        mapMO (fun r => selRow cols r cs) rows = some prs ∧
        filterRows cols p rows = some frs ∧
        filterRows cs p prs = some out ∧
        mapMO (fun r => selRow cols r cs) frs = some out := by
  intro rows
  induction rows with
  | nil => exact ⟨[], [], [], rfl, rfl, rfl, rfl⟩
  | cons r rs ih =>
    rcases ih with ⟨prs, frs, out, h1, h2, h3, h4⟩
    rcases selRow_total r hcs with ⟨pr, hpr⟩
    rcases evalExpr_total r p (subB_trans hp hcs) with ⟨v, hv⟩
    have hv2 : evalExpr cs pr p = some v := by
      rw [evalExpr_transfer hpr p hp, hv]
    by_cases hv0 : v = 0
    · refine ⟨pr :: prs, frs, out, ?_, ?_, ?_, h4⟩
      · simp [mapMO, hpr, h1]
      · simp [filterRows, hv, h2, hv0]
      · simp [filterRows, hv2, h3, hv0]
    · refine ⟨pr :: prs, r :: frs, pr :: out, ?_, ?_, ?_, ?_⟩
      · simp [mapMO, hpr, h1]
      · simp [filterRows, hv, h2, hv0]
      · simp [filterRows, hv2, h3, hv0]
      · simp [mapMO, hpr, h4]

theorem collect_filter_select {p : Expr} {cs : List String} {c : Plan}
    (hvc : validPlan c = true) (hcs : subB cs (schema c) = true)
    (hp : subB (roots p) cs = true) :
    collect (.filter p (.select cs c)) = collect (.select cs (.filter p c)) := by
  rcases collect_total c hvc with ⟨t, ht, hcols⟩
  have hcs2 : subB cs t.cols = true := by rw [hcols]; exact hcs
  rcases swap_core hcs2 hp t.rows with ⟨prs, frs, out, h1, h2, h3, h4⟩
  have lhs : collect (.filter p (.select cs c)) = some (Table.mk cs out) := by
    simp [collect, ht, h1, h3]
  have rhs : collect (.select cs (.filter p c)) = some (Table.mk cs out) := by
    simp [collect, ht, h2, h4]
  rw [lhs, rhs]

theorem collect_select_select {cs ds : List String} {c : Plan}
    (hvc : validPlan c = true) (hds : subB ds (schema c) = true)
    (hcs : subB cs ds = true) :
    collect (.select cs (.select ds c)) = collect (.select cs c) := by
  rcases collect_total c hvc with ⟨t, ht, hcols⟩
  have hds2 : subB ds t.cols = true := by rw [hcols]; exact hds
  rcases mapMO_total (f := fun r => selRow t.cols r ds) (l := t.rows)
    (fun r _ => selRow_total r hds2) with ⟨prs, h1⟩
  have hcomp : mapMO (fun pr => selRow ds pr cs) prs =
      mapMO (fun r => selRow t.cols r cs) t.rows :=
    mapMO_comp_pointwise (fun r pr hf => selRow_transfer hf hcs) h1
  simp [collect, ht, h1, hcomp]

theorem collect_slice_select {n : Nat} {cs : List String} {c : Plan}
    (hvc : validPlan c = true) (hcs : subB cs (schema c) = true) :
    collect (.slice n (.select cs c)) = collect (.select cs (.slice n c)) := by
  rcases collect_total c hvc with ⟨t, ht, hcols⟩
  have hcs2 : subB cs t.cols = true := by rw [hcols]; exact hcs
  rcases mapMO_total (f := fun r => selRow t.cols r cs) (l := t.rows)
    (fun r _ => selRow_total r hcs2) with ⟨prs, h1⟩
  have h2 := mapMO_take h1 n
  simp [collect, ht, h1, h2]

theorem collect_slice_slice {n m : Nat} {c : Plan} :
    collect (.slice n (.slice m c)) = collect (.slice (min n m) c) := by
  cases hc : collect c with
  | none => simp [collect, hc]
  | some t => simp [collect, hc, List.take_take]

theorem filter_filter_core {cols : List String} {p q : Expr}
    (hp : subB (roots p) cols = true) (hq : subB (roots q) cols = true) :
    ∀ (rows : List (List Int)),
      ∃ frs out,
        filterRows cols q rows = some frs ∧
        filterRows cols p frs = some out ∧
        filterRows cols (.mul p q) rows = some out := by
  intro rows
  induction rows with
  | nil => exact ⟨[], [], rfl, rfl, rfl⟩
  | cons r rs ih =>
    rcases ih with ⟨frs, out, h1, h2, h3⟩
    rcases evalExpr_total r p hp with ⟨vp, hvp⟩
    rcases evalExpr_total r q hq with ⟨vq, hvq⟩
    have hm : evalExpr cols r (.mul p q) = some (vp * vq) := by
      simp [evalExpr, hvp, hvq]
    by_cases hq0 : vq = 0
    · refine ⟨frs, out, ?_, h2, ?_⟩
      · simp [filterRows, hvq, h1, hq0]
      · simp [filterRows, hm, h3, hq0]
    · by_cases hp0 : vp = 0
      · refine ⟨r :: frs, out, ?_, ?_, ?_⟩
        · simp [filterRows, hvq, h1, hq0]
        · simp [filterRows, hvp, h2, hp0]
        · simp [filterRows, hm, h3, hp0]
      · refine ⟨r :: frs, r :: out, ?_, ?_, ?_⟩
        · simp [filterRows, hvq, h1, hq0]
        · simp [filterRows, hvp, h2, hp0]
        · have : ¬(vp * vq = 0) := by
            intro hc
            rcases mul_eq_zero.mp hc with h | h
            · exact hp0 h
            · exact hq0 h
          simp [filterRows, hm, h3, this]

theorem collect_filter_merge {p q : Expr} {c : Plan}
    (hvc : validPlan c = true) (hq : subB (roots q) (schema c) = true)
    (hp : subB (roots p) (schema c) = true) :
    collect (.filter (.mul p q) c) = collect (.filter p (.filter q c)) := by
  rcases collect_total c hvc with ⟨t, ht, hcols⟩
  have hp2 : subB (roots p) t.cols = true := by rw [hcols]; exact hp
  have hq2 : subB (roots q) t.cols = true := by rw [hcols]; exact hq
  rcases filter_filter_core hp2 hq2 t.rows with ⟨frs, out, h1, h2, h3⟩
  simp [collect, ht, h1, h2, h3]

/-- Smart sum constructor folding two literals. -/
def mkAdd : Expr → Expr → Expr
  | .lit x, .lit y => .lit (x + y)
  | a, b => .add a b

/-- Smart product constructor folding two literals. -/
def mkMul : Expr → Expr → Expr
  | .lit x, .lit y => .lit (x * y)
  | a, b => .mul a b

/-- Smart comparison constructor folding two literals. -/
def mkLt : Expr → Expr → Expr
  | .lit x, .lit y => .lit (if x < y then (1 : Int) else 0)
  | a, b => .lt a b

theorem mkAdd_eval (cols : List String) (r : List Int) (a b : Expr) :
    evalExpr cols r (mkAdd a b) = evalExpr cols r (.add a b) := by
  cases a <;> cases b <;> simp [mkAdd, evalExpr]

theorem mkMul_eval (cols : List String) (r : List Int) (a b : Expr) :
    evalExpr cols r (mkMul a b) = evalExpr cols r (.mul a b) := by
  cases a <;> cases b <;> simp [mkMul, evalExpr]

theorem mkLt_eval (cols : List String) (r : List Int) (a b : Expr) :
    evalExpr cols r (mkLt a b) = evalExpr cols r (.lt a b) := by
  cases a <;> cases b <;> simp [mkLt, evalExpr]

theorem roots_mkAdd {a b : Expr} : ∀ s, s ∈ roots (mkAdd a b) → s ∈ roots (Expr.add a b) := by
  intro s
  cases a <;> cases b <;> simp [mkAdd, roots]

theorem roots_mkMul {a b : Expr} : ∀ s, s ∈ roots (mkMul a b) → s ∈ roots (Expr.mul a b) := by
  intro s
  cases a <;> cases b <;> simp [mkMul, roots]

theorem roots_mkLt {a b : Expr} : ∀ s, s ∈ roots (mkLt a b) → s ∈ roots (Expr.lt a b) := by
  intro s
  cases a <;> cases b <;> simp [mkLt, roots]

/-- Modelled from the spec: the simplification pass folds literal
arithmetic bottom-up (section 4.3, constant folding). -/
def foldE : Expr → Expr
  | .lit n => .lit n
  | .col s => .col s
  | .add a b => mkAdd (foldE a) (foldE b)
  | .mul a b => mkMul (foldE a) (foldE b)
  | .lt a b => mkLt (foldE a) (foldE b)

theorem foldE_eval (cols : List String) (r : List Int) :
    ∀ (p : Expr), evalExpr cols r (foldE p) = evalExpr cols r p := by
  intro p
  induction p with
  | lit n => rfl
  | col s => rfl
  | add a b iha ihb =>
    rw [foldE, mkAdd_eval]
    simp only [evalExpr, iha, ihb]
  | mul a b iha ihb =>
    rw [foldE, mkMul_eval]
    simp only [evalExpr, iha, ihb]
  | lt a b iha ihb =>
    rw [foldE, mkLt_eval]
    simp only [evalExpr, iha, ihb]

theorem roots_foldE : ∀ (p : Expr) (s : String), s ∈ roots (foldE p) → s ∈ roots p := by
  intro p
  induction p with
  | lit n => intro s hs; exact hs
  | col s2 => intro s hs; exact hs
  | add a b iha ihb =>
    intro s hs
    rcases List.mem_append.mp (by simpa [roots] using roots_mkAdd s hs) with h | h
    · exact List.mem_append_left _ (iha s h)
    · exact List.mem_append_right _ (ihb s h)
  | mul a b iha ihb =>
    intro s hs
    rcases List.mem_append.mp (by simpa [roots] using roots_mkMul s hs) with h | h
    · exact List.mem_append_left _ (iha s h)
    · exact List.mem_append_right _ (ihb s h)
  | lt a b iha ihb =>
    intro s hs
    rcases List.mem_append.mp (by simpa [roots] using roots_mkLt s hs) with h | h
    · exact List.mem_append_left _ (iha s h)
    · exact List.mem_append_right _ (ihb s h)

/-- Modelled from the spec: the common-subexpression-elimination pass
deduplicates identical expression subtrees within one node (section
4.3); a sum or comparison whose two operands are the same subtree is
rewritten to compute that subtree once. -/
def cseE : Expr → Expr
  | .lit n => .lit n
  | .col s => .col s
  | .add a b =>
    if cseE a = cseE b then .mul (.lit 2) (cseE a) else .add (cseE a) (cseE b)
  | .mul a b => .mul (cseE a) (cseE b)
  | .lt a b =>
    if cseE a = cseE b then .mul (.lit 0) (cseE a) else .lt (cseE a) (cseE b)

theorem cseE_eval (cols : List String) (r : List Int) :
    ∀ (p : Expr), evalExpr cols r (cseE p) = evalExpr cols r p := by
  intro p
  induction p with
  | lit n => rfl
  | col s => rfl
  | add a b iha ihb =>
    by_cases heq : cseE a = cseE b
    · have hb2 : evalExpr cols r (cseE a) = evalExpr cols r b := by rw [heq, ihb]
      rw [cseE, if_pos heq]
      cases hv : evalExpr cols r (cseE a) with
      | none =>
        have ha2 : evalExpr cols r a = none := by rw [← iha, hv]
        have hb3 : evalExpr cols r b = none := by rw [← hb2, hv]
        simp [evalExpr, hv, ha2, hb3]
      | some v =>
        have ha2 : evalExpr cols r a = some v := by rw [← iha, hv]
        have hb3 : evalExpr cols r b = some v := by rw [← hb2, hv]
        simp only [evalExpr, hv, ha2, hb3]
        rw [two_mul]
    · rw [cseE, if_neg heq]
      simp only [evalExpr, iha, ihb]
  | mul a b iha ihb =>
    rw [cseE]
    simp only [evalExpr, iha, ihb]
  | lt a b iha ihb =>
    by_cases heq : cseE a = cseE b
    · have hb2 : evalExpr cols r (cseE a) = evalExpr cols r b := by rw [heq, ihb]
      rw [cseE, if_pos heq]
      cases hv : evalExpr cols r (cseE a) with
      | none =>
        have ha2 : evalExpr cols r a = none := by rw [← iha, hv]
        have hb3 : evalExpr cols r b = none := by rw [← hb2, hv]
        simp [evalExpr, hv, ha2, hb3]
      | some v =>
        have ha2 : evalExpr cols r a = some v := by rw [← iha, hv]
        have hb3 : evalExpr cols r b = some v := by rw [← hb2, hv]
        simp [evalExpr, hv, ha2, hb3]
    · rw [cseE, if_neg heq]
      simp only [evalExpr, iha, ihb]

theorem roots_cseE : ∀ (p : Expr) (s : String), s ∈ roots (cseE p) → s ∈ roots p := by
  intro p
  induction p with
  | lit n => intro s hs; exact hs
  | col s2 => intro s hs; exact hs
  | add a b iha ihb =>
    intro s hs
    by_cases heq : cseE a = cseE b
    · rw [cseE, if_pos heq] at hs
      simp only [roots, List.nil_append] at hs
      exact List.mem_append_left _ (iha s hs)
    · rw [cseE, if_neg heq] at hs
      rcases List.mem_append.mp (by simpa [roots] using hs) with h | h
      · exact List.mem_append_left _ (iha s h)
      · exact List.mem_append_right _ (ihb s h)
  | mul a b iha ihb =>
    intro s hs
    rw [cseE] at hs
    rcases List.mem_append.mp (by simpa [roots] using hs) with h | h
    · exact List.mem_append_left _ (iha s h)
    · exact List.mem_append_right _ (ihb s h)
  | lt a b iha ihb =>
    intro s hs
    by_cases heq : cseE a = cseE b
    · rw [cseE, if_pos heq] at hs
      simp only [roots, List.nil_append] at hs
      exact List.mem_append_left _ (iha s hs)
    · rw [cseE, if_neg heq] at hs
      rcases List.mem_append.mp (by simpa [roots] using hs) with h | h
      · exact List.mem_append_left _ (iha s h)
      · exact List.mem_append_right _ (ihb s h)

theorem collect_filter_exprcongr {p1 p2 : Expr} {c : Plan}
    (hpt : ∀ cols r, evalExpr cols r p1 = evalExpr cols r p2) :
    collect (.filter p1 c) = collect (.filter p2 c) := by
  cases hc : collect c with
  | none => simp [collect, hc]
  | some t => simp [collect, hc, filterRows_congr (fun r => hpt t.cols r) t.rows]

/-- Modelled from the spec: predicate pushdown moves a filter below a
projection when the projection keeps every column the predicate reads
(section 4.3). -/
def predicate_pushdown : Plan → Plan
  | .scan t => .scan t
  | .select cs c => .select cs (predicate_pushdown c)
  | .slice n c => .slice n (predicate_pushdown c)
  | .filter p c =>
    match predicate_pushdown c with
    | .select cs c2 =>
      if subB (roots p) cs then .select cs (.filter p c2) else .filter p (.select cs c2)
    | c2 => .filter p c2

theorem predicate_pushdown_ok :
    ∀ (P : Plan), schema (predicate_pushdown P) = schema P ∧
      (validPlan P = true →
        validPlan (predicate_pushdown P) = true ∧
        collect (predicate_pushdown P) = collect P) := by
  intro P
  induction P with
  | scan t => exact ⟨rfl, fun h => ⟨h, rfl⟩⟩
  | select cs c ih =>
    refine ⟨by simp [predicate_pushdown, schema], ?_⟩
    intro h
    have hparts := Bool.and_eq_true_iff.mp (by simpa [validPlan] using h)
    obtain ⟨hv2, hc2⟩ := ih.2 hparts.1
    refine ⟨?_, ?_⟩
    · simp only [predicate_pushdown, validPlan, hv2, ih.1, Bool.true_and]
      exact hparts.2
    · exact collect_select_congr hc2
  | slice n c ih =>
    refine ⟨by simp [predicate_pushdown, schema, ih.1], ?_⟩
    intro h
    obtain ⟨hv2, hc2⟩ := ih.2 (by simpa [validPlan] using h)
    exact ⟨by simpa [predicate_pushdown, validPlan] using hv2, collect_slice_congr hc2⟩
  | filter p c ih =>
    obtain ⟨ihs, ihrest⟩ := ih
    cases hm : predicate_pushdown c with
    | select cs c2 =>
      have hsch : cs = schema c := by
        rw [hm] at ihs
        simpa [schema] using ihs
      by_cases hg : subB (roots p) cs = true
      · constructor
        · simp only [predicate_pushdown, hm]
          rw [if_pos hg]
          simpa [schema] using hsch
        · intro h
          have hparts := Bool.and_eq_true_iff.mp (by simpa [validPlan] using h)
          obtain ⟨hv2, hc2⟩ := ihrest hparts.1
          rw [hm] at hv2 hc2
          have hsel := Bool.and_eq_true_iff.mp (by simpa [validPlan] using hv2)
          constructor
          · simp only [predicate_pushdown, hm]
            rw [if_pos hg]
            simp only [validPlan, schema]
            simp [hsel.1, hsel.2, subB_trans hg hsel.2]
          · have step1 : collect (.select cs (.filter p c2)) =
                collect (.filter p (.select cs c2)) :=
              (collect_filter_select hsel.1 hsel.2 hg).symm
            have step2 : collect (.filter p (.select cs c2)) = collect (.filter p c) :=
              collect_filter_congr hc2
            simp only [predicate_pushdown, hm]
            rw [if_pos hg]
            rw [step1, step2]
      · constructor
        · simp only [predicate_pushdown, hm]
          rw [if_neg hg]
          simpa [schema] using hsch
        · intro h
          have hparts := Bool.and_eq_true_iff.mp (by simpa [validPlan] using h)
          exact absurd (by rw [← hsch] at hparts; exact hparts.2) hg
    | scan t =>
      refine ⟨by simp [predicate_pushdown, hm, schema, ← ihs, hm], ?_⟩
      intro h
      have hparts := Bool.and_eq_true_iff.mp (by simpa [validPlan] using h)
      obtain ⟨hv2, hc2⟩ := ihrest hparts.1
      rw [hm] at hv2 hc2
      constructor
      · simp only [predicate_pushdown, hm, validPlan, hv2, Bool.true_and]
        rw [show schema (.scan t) = schema c from by rw [← ihs, hm]]
        exact hparts.2
      · simp only [predicate_pushdown, hm]
        exact collect_filter_congr hc2
    | filter q c2 =>
      refine ⟨by simp [predicate_pushdown, hm, schema, ← ihs, hm], ?_⟩
      intro h
      have hparts := Bool.and_eq_true_iff.mp (by simpa [validPlan] using h)
      obtain ⟨hv2, hc2⟩ := ihrest hparts.1
      rw [hm] at hv2 hc2
      have hscheq : schema c2 = schema c := by
        rw [← ihs, hm]
        rfl
      have hv2parts := Bool.and_eq_true_iff.mp (by simpa [validPlan] using hv2)
      constructor
      · simp only [predicate_pushdown, hm, validPlan, schema]
        rw [hscheq]
        simp [hv2parts.1, hparts.2,
          show subB (roots q) (schema c) = true from by rw [← hscheq]; exact hv2parts.2]
      · simp only [predicate_pushdown, hm]
        exact collect_filter_congr hc2
    | slice m c2 =>
      refine ⟨by simp [predicate_pushdown, hm, schema, ← ihs, hm], ?_⟩
      intro h
      have hparts := Bool.and_eq_true_iff.mp (by simpa [validPlan] using h)
      obtain ⟨hv2, hc2⟩ := ihrest hparts.1
      rw [hm] at hv2 hc2
      have hscheq : schema c2 = schema c := by
        rw [← ihs, hm]
        rfl
      have hv2p : validPlan c2 = true := by simpa [validPlan] using hv2
      constructor
      · simp only [predicate_pushdown, hm, validPlan, schema]
        rw [hscheq]
        simp [hv2p, hparts.2]
      · simp only [predicate_pushdown, hm]
        exact collect_filter_congr hc2

/-- Modelled from the spec: projection pushdown collapses nested
projections and moves a projection below a filter whose predicate only
reads kept columns (section 4.3). -/
def projection_pushdown : Plan → Plan
  | .scan t => .scan t
  | .filter p c => .filter p (projection_pushdown c)
  | .slice n c => .slice n (projection_pushdown c)
  | .select cs c =>
    match projection_pushdown c with
    | .select ds c2 => if subB cs ds then .select cs c2 else .select cs (.select ds c2)
    | .filter q c2 =>
      if subB (roots q) cs then .filter q (.select cs c2) else .select cs (.filter q c2)
    | c2 => .select cs c2

theorem projection_pushdown_ok :
    ∀ (P : Plan), schema (projection_pushdown P) = schema P ∧
      (validPlan P = true →
        validPlan (projection_pushdown P) = true ∧
        collect (projection_pushdown P) = collect P) := by
  intro P
  induction P with
  | scan t => exact ⟨rfl, fun h => ⟨h, rfl⟩⟩
  | filter p c ih =>
    refine ⟨by simp [projection_pushdown, schema, ih.1], ?_⟩
    intro h
    have hparts := Bool.and_eq_true_iff.mp (by simpa [validPlan] using h)
    obtain ⟨hv2, hc2⟩ := ih.2 hparts.1
    refine ⟨?_, collect_filter_congr hc2⟩
    simp only [projection_pushdown, validPlan, hv2, Bool.true_and, ih.1]
    exact hparts.2
  | slice n c ih =>
    refine ⟨by simp [projection_pushdown, schema, ih.1], ?_⟩
    intro h
    obtain ⟨hv2, hc2⟩ := ih.2 (by simpa [validPlan] using h)
    exact ⟨by simpa [projection_pushdown, validPlan] using hv2, collect_slice_congr hc2⟩
  | select cs c ih =>
    obtain ⟨ihs, ihrest⟩ := ih
    cases hm : projection_pushdown c with
    | select ds c2 =>
      have hds : ds = schema c := by
        rw [hm] at ihs
        simpa [schema] using ihs
      by_cases hg : subB cs ds = true
      · constructor
        · simp only [projection_pushdown, hm]
          rw [if_pos hg]
          simp [schema]
        · intro h
          have hparts := Bool.and_eq_true_iff.mp (by simpa [validPlan] using h)
          obtain ⟨hv2, hc2⟩ := ihrest hparts.1
          rw [hm] at hv2 hc2
          have hsel := Bool.and_eq_true_iff.mp (by simpa [validPlan] using hv2)
          constructor
          · simp only [projection_pushdown, hm]
            rw [if_pos hg]
            simp only [validPlan]
            simp [hsel.1, subB_trans hg hsel.2]
          · simp only [projection_pushdown, hm]
            rw [if_pos hg]
            rw [← collect_select_select hsel.1 hsel.2 hg]
            exact collect_select_congr hc2
      · constructor
        · simp only [projection_pushdown, hm]
          rw [if_neg hg]
          simp [schema]
        · intro h
          have hparts := Bool.and_eq_true_iff.mp (by simpa [validPlan] using h)
          exact absurd (by rw [← hds] at hparts; exact hparts.2) hg
    | filter q c2 =>
      have hsc2 : schema c2 = schema c := by
        rw [← ihs, hm]
        rfl
      by_cases hg : subB (roots q) cs = true
      · constructor
        · simp only [projection_pushdown, hm]
          rw [if_pos hg]
          simp [schema]
        · intro h
          have hparts := Bool.and_eq_true_iff.mp (by simpa [validPlan] using h)
          obtain ⟨hv2, hc2⟩ := ihrest hparts.1
          rw [hm] at hv2 hc2
          have hv2parts := Bool.and_eq_true_iff.mp (by simpa [validPlan] using hv2)
          have hcssub : subB cs (schema c2) = true := by
            rw [hsc2]
            exact hparts.2
          constructor
          · simp only [projection_pushdown, hm]
            rw [if_pos hg]
            simp only [validPlan, schema]
            simp [hv2parts.1, hg, hcssub]
          · simp only [projection_pushdown, hm]
            rw [if_pos hg]
            rw [collect_filter_select hv2parts.1 hcssub hg]
            exact collect_select_congr hc2
      · constructor
        · simp only [projection_pushdown, hm]
          rw [if_neg hg]
          simp [schema]
        · intro h
          have hparts := Bool.and_eq_true_iff.mp (by simpa [validPlan] using h)
          obtain ⟨hv2, hc2⟩ := ihrest hparts.1
          rw [hm] at hv2 hc2
          have hv2parts := Bool.and_eq_true_iff.mp (by simpa [validPlan] using hv2)
          constructor
          · simp only [projection_pushdown, hm]
            rw [if_neg hg]
            simp only [validPlan, schema]
            simp [hv2parts.1, hv2parts.2,
              show subB cs (schema c2) = true from by rw [hsc2]; exact hparts.2]
          · simp only [projection_pushdown, hm]
            rw [if_neg hg]
            exact collect_select_congr hc2
    | scan t =>
      refine ⟨by simp [projection_pushdown, hm, schema], ?_⟩
      intro h
      have hparts := Bool.and_eq_true_iff.mp (by simpa [validPlan] using h)
      obtain ⟨hv2, hc2⟩ := ihrest hparts.1
      rw [hm] at hv2 hc2
      have hsc : t.cols = schema c := by
        rw [← ihs, hm]
        rfl
      constructor
      · simp only [projection_pushdown, hm, validPlan, schema]
        rw [hsc]
        simp [hparts.2]
      · simp only [projection_pushdown, hm]
        exact collect_select_congr hc2
    | slice m c2 =>
      refine ⟨by simp [projection_pushdown, hm, schema], ?_⟩
      intro h
      have hparts := Bool.and_eq_true_iff.mp (by simpa [validPlan] using h)
      obtain ⟨hv2, hc2⟩ := ihrest hparts.1
      rw [hm] at hv2 hc2
      have hsc : schema c2 = schema c := by
        rw [← ihs, hm]
        rfl
      have hv2p : validPlan c2 = true := by simpa [validPlan] using hv2
      constructor
      · simp only [projection_pushdown, hm, validPlan, schema]
        rw [hsc]
        simp [hv2p, hparts.2]
      · simp only [projection_pushdown, hm]
        exact collect_select_congr hc2

/-- Modelled from the spec: slice pushdown moves a head limit below
order- and count-preserving operators, toward the scan, and merges
nested limits (section 4.3). -/
def slice_pushdown : Plan → Plan
  | .scan t => .scan t
  | .filter p c => .filter p (slice_pushdown c)
  | .select cs c => .select cs (slice_pushdown c)
  | .slice n c =>
    match slice_pushdown c with
    | .select cs c2 => .select cs (.slice n c2)
    | .slice m c2 => .slice (min n m) c2
    | c2 => .slice n c2

theorem slice_pushdown_ok :
    ∀ (P : Plan), schema (slice_pushdown P) = schema P ∧
      (validPlan P = true →
        validPlan (slice_pushdown P) = true ∧
        collect (slice_pushdown P) = collect P) := by
  intro P
  induction P with
  | scan t => exact ⟨rfl, fun h => ⟨h, rfl⟩⟩
  | filter p c ih =>
    refine ⟨by simp [slice_pushdown, schema, ih.1], ?_⟩
    intro h
    have hparts := Bool.and_eq_true_iff.mp (by simpa [validPlan] using h)
    obtain ⟨hv2, hc2⟩ := ih.2 hparts.1
    refine ⟨?_, collect_filter_congr hc2⟩
    simp only [slice_pushdown, validPlan, hv2, Bool.true_and, ih.1]
    exact hparts.2
  | select cs c ih =>
    refine ⟨by simp [slice_pushdown, schema], ?_⟩
    intro h
    have hparts := Bool.and_eq_true_iff.mp (by simpa [validPlan] using h)
    obtain ⟨hv2, hc2⟩ := ih.2 hparts.1
    refine ⟨?_, collect_select_congr hc2⟩
    simp only [slice_pushdown, validPlan, hv2, Bool.true_and, ih.1]
    exact hparts.2
  | slice n c ih =>
    obtain ⟨ihs, ihrest⟩ := ih
    cases hm : slice_pushdown c with
    | select cs c2 =>
      refine ⟨by simp [slice_pushdown, hm, schema, ← ihs, hm], ?_⟩
      intro h
      obtain ⟨hv2, hc2⟩ := ihrest (by simpa [validPlan] using h)
      rw [hm] at hv2 hc2
      have hsel := Bool.and_eq_true_iff.mp (by simpa [validPlan] using hv2)
      constructor
      · simp only [slice_pushdown, hm, validPlan, schema]
        simp [hsel.1, hsel.2]
      · simp only [slice_pushdown, hm]
        rw [← collect_slice_select hsel.1 hsel.2]
        exact collect_slice_congr hc2
    | slice m c2 =>
      refine ⟨by simp [slice_pushdown, hm, schema, ← ihs, hm], ?_⟩
      intro h
      obtain ⟨hv2, hc2⟩ := ihrest (by simpa [validPlan] using h)
      rw [hm] at hv2 hc2
      have hv2p : validPlan c2 = true := by simpa [validPlan] using hv2
      constructor
      · simpa [slice_pushdown, hm, validPlan] using hv2p
      · simp only [slice_pushdown, hm]
        rw [← collect_slice_slice]
        exact collect_slice_congr hc2
    | scan t =>
      refine ⟨by simp [slice_pushdown, hm, schema, ← ihs, hm], ?_⟩
      intro h
      obtain ⟨hv2, hc2⟩ := ihrest (by simpa [validPlan] using h)
      rw [hm] at hv2 hc2
      exact ⟨by simp [slice_pushdown, hm, validPlan, hv2],
        by simp only [slice_pushdown, hm]; exact collect_slice_congr hc2⟩
    | filter q c2 =>
      refine ⟨by simp [slice_pushdown, hm, schema, ← ihs, hm], ?_⟩
      intro h
      obtain ⟨hv2, hc2⟩ := ihrest (by simpa [validPlan] using h)
      rw [hm] at hv2 hc2
      exact ⟨by simpa [slice_pushdown, hm, validPlan] using hv2,
        by simp only [slice_pushdown, hm]; exact collect_slice_congr hc2⟩

/-- Modelled from the spec: the simplification pass folds literal
arithmetic in every predicate and merges consecutive filters by
conjunction (section 4.3). -/
def simplify : Plan → Plan
  | .scan t => .scan t
  | .select cs c => .select cs (simplify c)
  | .slice n c => .slice n (simplify c)
  | .filter p c =>
    match simplify c with
    | .filter q c2 => .filter (.mul (foldE p) q) c2
    | c2 => .filter (foldE p) c2

theorem subB_roots_foldE {p : Expr} {ys : List String} (h : subB (roots p) ys = true) :
    subB (roots (foldE p)) ys = true :=
  subB_of_forall (fun s hs => subB_mem h s (roots_foldE p s hs))

theorem subB_roots_cseE {p : Expr} {ys : List String} (h : subB (roots p) ys = true) :
    subB (roots (cseE p)) ys = true :=
  subB_of_forall (fun s hs => subB_mem h s (roots_cseE p s hs))

theorem subB_append_intro {xs zs ys : List String} (h1 : subB xs ys = true)
    (h2 : subB zs ys = true) : subB (xs ++ zs) ys = true := by
  apply subB_of_forall
  intro x hx
  rcases List.mem_append.mp hx with h | h
  · exact subB_mem h1 x h
  · exact subB_mem h2 x h

theorem simplify_ok :
    ∀ (P : Plan), schema (simplify P) = schema P ∧
      (validPlan P = true →
        validPlan (simplify P) = true ∧
        collect (simplify P) = collect P) := by
  intro P
  induction P with
  | scan t => exact ⟨rfl, fun h => ⟨h, rfl⟩⟩
  | select cs c ih =>
    refine ⟨by simp [simplify, schema], ?_⟩
    intro h
    have hparts := Bool.and_eq_true_iff.mp (by simpa [validPlan] using h)
    obtain ⟨hv2, hc2⟩ := ih.2 hparts.1
    refine ⟨?_, collect_select_congr hc2⟩
    simp only [simplify, validPlan, hv2, Bool.true_and, ih.1]
    exact hparts.2
  | slice n c ih =>
    refine ⟨by simp [simplify, schema, ih.1], ?_⟩
    intro h
    obtain ⟨hv2, hc2⟩ := ih.2 (by simpa [validPlan] using h)
    exact ⟨by simpa [simplify, validPlan] using hv2, collect_slice_congr hc2⟩
  | filter p c ih =>
    obtain ⟨ihs, ihrest⟩ := ih
    cases hm : simplify c with
    | filter q c2 =>
      refine ⟨by simp [simplify, hm, schema, ← ihs, hm], ?_⟩
      intro h
      have hparts := Bool.and_eq_true_iff.mp (by simpa [validPlan] using h)
      obtain ⟨hv2, hc2⟩ := ihrest hparts.1
      rw [hm] at hv2 hc2
      have hv2parts := Bool.and_eq_true_iff.mp (by simpa [validPlan] using hv2)
      have hsc2 : schema c2 = schema c := by
        rw [← ihs, hm]
        rfl
      have hp2 : subB (roots p) (schema c2) = true := by
        rw [hsc2]
        exact hparts.2
      constructor
      · simp only [simplify, hm, validPlan, schema, roots]
        simp [hv2parts.1, subB_append_intro (subB_roots_foldE hp2) hv2parts.2]
      · simp only [simplify, hm]
        have step1 : collect (.filter (Expr.mul (foldE p) q) c2) =
            collect (.filter (Expr.mul p q) c2) := by
          apply collect_filter_exprcongr
          intro cols r
          simp only [evalExpr, foldE_eval]
        have step2 : collect (.filter (Expr.mul p q) c2) =
            collect (.filter p (.filter q c2)) :=
          collect_filter_merge hv2parts.1 hv2parts.2 hp2
        rw [step1, step2]
        exact collect_filter_congr hc2
    | scan t =>
      refine ⟨by simp [simplify, hm, schema, ← ihs, hm], ?_⟩
      intro h
      have hparts := Bool.and_eq_true_iff.mp (by simpa [validPlan] using h)
      obtain ⟨hv2, hc2⟩ := ihrest hparts.1
      rw [hm] at hv2 hc2
      have hsc : t.cols = schema c := by
        rw [← ihs, hm]
        rfl
      constructor
      · simp only [simplify, hm, validPlan, schema]
        rw [hsc]
        simp [subB_roots_foldE hparts.2]
      · simp only [simplify, hm]
        rw [collect_filter_exprcongr (fun cols r => foldE_eval cols r p)]
        exact collect_filter_congr hc2
    | select ds c2 =>
      refine ⟨by simp [simplify, hm, schema, ← ihs, hm], ?_⟩
      intro h
      have hparts := Bool.and_eq_true_iff.mp (by simpa [validPlan] using h)
      obtain ⟨hv2, hc2⟩ := ihrest hparts.1
      rw [hm] at hv2 hc2
      have hsc : ds = schema c := by
        rw [← ihs, hm]
        rfl
      have hselparts := Bool.and_eq_true_iff.mp (by simpa [validPlan] using hv2)
      constructor
      · simp only [simplify, hm, validPlan, schema]
        simp [hselparts.1, hselparts.2,
          show subB (roots (foldE p)) ds = true from by
            rw [hsc]; exact subB_roots_foldE hparts.2]
      · simp only [simplify, hm]
        rw [collect_filter_exprcongr (fun cols r => foldE_eval cols r p)]
        exact collect_filter_congr hc2
    | slice m c2 =>
      refine ⟨by simp [simplify, hm, schema, ← ihs, hm], ?_⟩
      intro h
      have hparts := Bool.and_eq_true_iff.mp (by simpa [validPlan] using h)
      obtain ⟨hv2, hc2⟩ := ihrest hparts.1
      rw [hm] at hv2 hc2
      have hsc : schema c2 = schema c := by
        rw [← ihs, hm]
        rfl
      have hv2p : validPlan c2 = true := by simpa [validPlan] using hv2
      constructor
      · simp only [simplify, hm, validPlan, schema]
        rw [hsc]
        simp [hv2p, subB_roots_foldE hparts.2]
      · simp only [simplify, hm]
        rw [collect_filter_exprcongr (fun cols r => foldE_eval cols r p)]
        exact collect_filter_congr hc2

/-- Modelled from the spec: the plan-level CSE pass rewrites every
predicate with the subtree-deduplicating expression rewrite. -/
def cse : Plan → Plan
  | .scan t => .scan t
  | .filter p c => .filter (cseE p) (cse c)
  | .select cs c => .select cs (cse c)
  | .slice n c => .slice n (cse c)

theorem cse_ok :
    ∀ (P : Plan), schema (cse P) = schema P ∧
      (validPlan P = true →
        validPlan (cse P) = true ∧
        collect (cse P) = collect P) := by
  intro P
  induction P with
  | scan t => exact ⟨rfl, fun h => ⟨h, rfl⟩⟩
  | filter p c ih =>
    refine ⟨by simp [cse, schema, ih.1], ?_⟩
    intro h
    have hparts := Bool.and_eq_true_iff.mp (by simpa [validPlan] using h)
    obtain ⟨hv2, hc2⟩ := ih.2 hparts.1
    constructor
    · simp only [cse, validPlan, hv2, Bool.true_and, ih.1]
      exact subB_roots_cseE hparts.2
    · show collect (.filter (cseE p) (cse c)) = collect (.filter p c)
      rw [collect_filter_exprcongr (fun cols r => cseE_eval cols r p)]
      exact collect_filter_congr hc2
  | select cs c ih =>
    refine ⟨by simp [cse, schema], ?_⟩
    intro h
    have hparts := Bool.and_eq_true_iff.mp (by simpa [validPlan] using h)
    obtain ⟨hv2, hc2⟩ := ih.2 hparts.1
    refine ⟨?_, collect_select_congr hc2⟩
    simp only [cse, validPlan, hv2, Bool.true_and, ih.1]
    exact hparts.2
  | slice n c ih =>
    refine ⟨by simp [cse, schema, ih.1], ?_⟩
    intro h
    obtain ⟨hv2, hc2⟩ := ih.2 (by simpa [validPlan] using h)
    exact ⟨by simpa [cse, validPlan] using hv2, collect_slice_congr hc2⟩

/-- The individually toggleable optimizations surfaced by
RbLazyFrame.optimization_toggle. -/
structure OptFlags where
  projection_pushdown : Bool
  predicate_pushdown : Bool
  simplify_expression : Bool
  cse_toggle : Bool
  slice_pushdown : Bool
deriving DecidableEq

/-- Apply a pass only when its toggle is on. -/
def passIf (b : Bool) (g : Plan → Plan) (P : Plan) : Plan :=
  if b then g P else P

/-- Modelled from the spec: the optimizer runs the enabled passes in
one deterministic order, each rewriting the plan (section 4.3). -/
def optimize (f : OptFlags) (P : Plan) : Plan :=
  passIf f.slice_pushdown slice_pushdown
    (passIf f.cse_toggle cse
      (passIf f.simplify_expression simplify
        (passIf f.predicate_pushdown predicate_pushdown
          (passIf f.projection_pushdown projection_pushdown P))))

theorem passIf_ok {g : Plan → Plan}
    (hg : ∀ Q, validPlan Q = true → validPlan (g Q) = true ∧ collect (g Q) = collect Q)
    (b : Bool) (P : Plan) (h : validPlan P = true) :
    validPlan (passIf b g P) = true ∧ collect (passIf b g P) = collect P := by
  cases b with
  | false => exact ⟨h, rfl⟩
  | true => simpa [passIf] using hg P h

/-- C1.  Optimizer soundness: for every valid plan and every
combination of the toggleable passes, collecting the optimized plan
yields exactly the table of the unoptimized plan. -/
theorem optimizer_soundness (f : OptFlags) (P : Plan) (h : validPlan P = true) :
    collect (optimize f P) = collect P := by
  have s1 := passIf_ok (fun Q hq => (projection_pushdown_ok Q).2 hq)
    f.projection_pushdown P h
  have s2 := passIf_ok (fun Q hq => (predicate_pushdown_ok Q).2 hq)
    f.predicate_pushdown _ s1.1
  have s3 := passIf_ok (fun Q hq => (simplify_ok Q).2 hq)
    f.simplify_expression _ s2.1
  have s4 := passIf_ok (fun Q hq => (cse_ok Q).2 hq)
    f.cse_toggle _ s3.1
  have s5 := passIf_ok (fun Q hq => (slice_pushdown_ok Q).2 hq)
    f.slice_pushdown _ s4.1
  show collect (passIf f.slice_pushdown slice_pushdown _) = collect P
  rw [s5.2, s4.2, s3.2, s2.2, s1.2]

/-- Witness for C1: a concrete valid plan exercising every operator,
optimized with every pass enabled, collects to the same table. -/
theorem optimizer_soundness_witness :
    collect (optimize (OptFlags.mk true true true true true)
      (Plan.filter (Expr.lt (Expr.add (Expr.col "a") (Expr.lit 0)) (Expr.add (Expr.lit 4) (Expr.lit 6)))
        (Plan.select ["a"]
          (Plan.slice 2
            (Plan.scan (Table.mk ["a", "b"] [[1, 5], [20, 6], [3, 7]])))))) =
    collect
      (Plan.filter (Expr.lt (Expr.add (Expr.col "a") (Expr.lit 0)) (Expr.add (Expr.lit 4) (Expr.lit 6)))
        (Plan.select ["a"]
          (Plan.slice 2
            (Plan.scan (Table.mk ["a", "b"] [[1, 5], [20, 6], [3, 7]]))))) :=
  optimizer_soundness (OptFlags.mk true true true true true)
    (Plan.filter (Expr.lt (Expr.add (Expr.col "a") (Expr.lit 0)) (Expr.add (Expr.lit 4) (Expr.lit 6)))
      (Plan.select ["a"]
        (Plan.slice 2
          (Plan.scan (Table.mk ["a", "b"] [[1, 5], [20, 6], [3, 7]])))))
    (by decide)

/-- Modelled from the spec: fetch executes a version of the plan
truncated at the source (section 4.4); truncation limits every scan to
the first n rows and leaves all operators in place. -/
def truncate_at_source : Plan → Nat → Plan
  | .scan t, n => .scan (Table.mk t.cols (t.rows.take n))
  | .filter p c, n => .filter p (truncate_at_source c n)
  | .select cs c, n => .select cs (truncate_at_source c n)
  | .slice m c, n => .slice m (truncate_at_source c n)

/-- The RbLazyFrame.fetch entry point: collect the source-truncated
plan. -/
def fetch (P : Plan) (n : Nat) : Option Table :=
  collect (truncate_at_source P n)

/-- Every scan of the plan holds at most n rows. -/
def scans_le : Plan → Nat → Bool
  | .scan t, n => decide (t.rows.length ≤ n)
  | .filter _ c, n => scans_le c n
  | .select _ c, n => scans_le c n
  | .slice _ c, n => scans_le c n

/-- C3.  Fetch truncates at the source, not at the output: the
truncated plan feeds at most n rows from every source, the operators
(filter, projection, slice) apply to the truncated input exactly as
collect applies them, and on a concrete filter plan the result differs
from naively truncating the output of collect. -/
theorem fetch_truncates_at_source :
    (∀ (P : Plan) (n : Nat), scans_le (truncate_at_source P n) n = true) ∧
    (∀ (p : Expr) (P : Plan) (n : Nat),
      fetch (.filter p P) n =
        match fetch P n with
        | some t => (filterRows t.cols p t.rows).map (fun rs => Table.mk t.cols rs)
        | none => none) ∧
    (∀ (cs : List String) (P : Plan) (n : Nat),
      fetch (.select cs P) n =
        match fetch P n with
        | some t => (mapMO (fun r => selRow t.cols r cs) t.rows).map (fun rs => Table.mk cs rs)
        | none => none) ∧
    (∀ (m : Nat) (P : Plan) (n : Nat),
      fetch (.slice m P) n =
        match fetch P n with
        | some t => some (Table.mk t.cols (t.rows.take m))
        | none => none) ∧
    decide (fetch (Plan.filter (Expr.lt (Expr.col "a") (Expr.lit 2))
        (Plan.scan (Table.mk ["a"] [[5], [1]]))) 1 =
      (collect (Plan.filter (Expr.lt (Expr.col "a") (Expr.lit 2))
        (Plan.scan (Table.mk ["a"] [[5], [1]])))).map
          (fun t => Table.mk t.cols (t.rows.take 1))) = false := by
  refine ⟨?_, fun p P n => rfl, fun cs P n => rfl, fun m P n => rfl, by decide⟩
  intro P n
  induction P with
  | scan t => simp [truncate_at_source, scans_le, List.length_take, Nat.min_le_left]
  | filter p c ih => simpa [truncate_at_source, scans_le] using ih
  | select cs c ih => simpa [truncate_at_source, scans_le] using ih
  | slice m c ih => simpa [truncate_at_source, scans_le] using ih

end Polars
